import Mathlib

/-!
Shallow embedding of the bingo-card validator (`src/app.py`): the tokenizer
`parse_numbers`, the table parser `parse_text_table`, the per-card validator
`validate_card`, and the fingerprint-based deduplication performed by the
`validate` request handler (embedded here as `validateBatch`).

Strings are modelled as `List Char` internally (Lean `String` at the API
boundary), Python `int` values as `Int`, and the invalid-token marker
(`None` in the source) as `none : Option Int`.
-/

namespace BingoApp

/-- Characters matched by Python's regex class `\s` (ASCII range). -/
def pySpace (c : Char) : Bool :=
  c == ' ' || c == '\t' || c == '\n' || c == '\r' || c == '\x0b' || c == '\x0c'

/-- Characters matched by the delimiter class `[,\s]` used in `parse_numbers`. -/
def cellDelim (c : Char) : Bool :=
  c == ',' || pySpace c

/-- Python `str.strip`: drop leading and trailing whitespace. -/
def pyStrip (s : List Char) : List Char :=
  ((s.dropWhile pySpace).reverse.dropWhile pySpace).reverse

/-- Worker for `pySplitlines`. -/
def slGo : List Char → List Char → List (List Char)
  | cur, [] => if cur = [] then [] else [cur.reverse]
  | cur, '\r' :: '\n' :: rest => cur.reverse :: slGo [] rest
  | cur, '\r' :: rest => cur.reverse :: slGo [] rest
  | cur, '\n' :: rest => cur.reverse :: slGo [] rest
  | cur, c :: rest => slGo (c :: cur) rest

/-- Python `str.splitlines`, restricted to the `\n`, `\r\n`, `\r` terminators:
a trailing terminator produces no final empty line, and an empty string has
no lines. -/
def pySplitlines (s : List Char) : List (List Char) :=
  slGo [] s

/-- Worker for `pySplitRuns`: `inRun` records whether the previous character
was part of a delimiter run that has already emitted its fragment. -/
def srGo (d : Char → Bool) (inRun : Bool) (cur : List Char) : List Char → List (List Char)
  | [] => [cur.reverse]
  | c :: rest =>
    if d c then
      if inRun then srGo d true [] rest
      else cur.reverse :: srGo d true [] rest
    else srGo d false (c :: cur) rest

/-- `re.split` on runs of delimiter characters (`re.split(r'[,\s]+', ...)` and
`re.split(r'\s+', ...)` in the source): fragments between maximal delimiter
runs, including empty fragments at the string's boundaries. -/
def pySplitRuns (d : Char → Bool) (s : List Char) : List (List Char) :=
  srGo d false [] s

/-- Digit tail of a Python integer literal: decimal digits optionally
separated by single underscores. `acc` is the value of the digits read so
far. -/
def pyDigits : Nat → List Char → Option Nat
  | acc, [] => some acc
  | acc, '_' :: d :: rest =>
    if d.isDigit then pyDigits (acc * 10 + (d.toNat - '0'.toNat)) rest else none
  | _, ['_'] => none
  | acc, c :: rest =>
    if c.isDigit then pyDigits (acc * 10 + (c.toNat - '0'.toNat)) rest else none

/-- A nonempty run of decimal digits with optional single underscores. -/
def pyNat : List Char → Option Nat
  | [] => none
  | c :: rest => if c.isDigit then pyDigits (c.toNat - '0'.toNat) rest else none

/-- Python `int(s)` on a whitespace-stripped string: optional sign followed
by decimal digits (underscores allowed between digits); `none` when the call
would raise `ValueError`. -/
def pyIntCore : List Char → Option Int
  | '+' :: rest => (pyNat rest).map (fun v => (v : Int))
  | '-' :: rest => (pyNat rest).map (fun v => -(v : Int))
  | s => (pyNat s).map (fun v => (v : Int))

/-- Python `int(s)` for a string: strips surrounding whitespace first. -/
def pyInt (s : List Char) : Option Int :=
  pyIntCore (pyStrip s)

/-- The loop body of `parse_numbers`: skip empty fragments; parse the rest,
with `none` marking a fragment `int` cannot parse (`numbers.append(None)`). -/
def pnLoop : List (List Char) → List (Option Int)
  | [] => []
  | p :: rest => if p = [] then pnLoop rest else pyInt p :: pnLoop rest

/-- `parse_numbers` (src/app.py:10-23): convert a cell string into a list of
tokens, each an integer or the invalid marker `none`. -/
def parse_numbers (cell : String) : List (Option Int) :=
  if cell.data = [] ∨ pyStrip cell.data = [] then []
  else pnLoop (pySplitRuns cellDelim (pyStrip cell.data))

/-- A Card Record: identifier plus the five column token-sequences, as built
by `parse_text_table`. -/
structure Card where
  id : String
  b : List (Option Int)
  i : List (Option Int)
  n : List (Option Int)
  g : List (Option Int)
  o : List (Option Int)
deriving DecidableEq

/-- `re.match(r'^card\s', line, re.IGNORECASE)`: the line starts with "card"
(case-insensitively) followed by a whitespace character. -/
def isHeaderLine (l : List Char) : Bool :=
  match l with
  | c1 :: c2 :: c3 :: c4 :: c5 :: _ =>
    c1.toLower == 'c' && c2.toLower == 'a' && c3.toLower == 'r' &&
    c4.toLower == 'd' && pySpace c5
  | _ => false

/-- Field access `parts[k]` (always guarded by a length check in the source). -/
def getF (ps : List (List Char)) (k : Nat) : List Char :=
  ps.getD k []

/-- The Card Record built from one data line's fields (src/app.py:88-101):
identifier from field 0, columns from fields 1-5. -/
def mkRec (parts : List (List Char)) : Card :=
  { id := String.mk (getF parts 0)
    b := parse_numbers (String.mk (getF parts 1))
    i := parse_numbers (String.mk (getF parts 2))
    n := parse_numbers (String.mk (getF parts 3))
    g := parse_numbers (String.mk (getF parts 4))
    o := parse_numbers (String.mk (getF parts 5)) }

/-- The line loop of `parse_text_table`: `headerFound` is the header latch. -/
def ptGo : List (List Char) → Bool → List Card
  | [], _ => []
  | line :: rest, headerFound =>
    let l := pyStrip line
    if l = [] then ptGo rest headerFound
    else if isHeaderLine l then ptGo rest true
    else if headerFound then
      let parts := pySplitRuns pySpace l
      if parts.length < 6 then ptGo rest headerFound
      else mkRec parts :: ptGo rest headerFound
    else ptGo rest headerFound

/-- `parse_text_table` (src/app.py:64-103). -/
def parse_text_table (text : String) : List Card :=
  ptGo (pySplitlines (pyStrip text.data)) false

/-- The validation errors `validate_card` can record, one constructor per
f-string in the source. -/
inductive Err where
  | len (name : String) (got : Nat)
  | nonNum (name : String)
  | center (name : String) (v : Int)
  | range (name : String) (v : Int) (low high : Int)
  | dup (name : String) (v : Int)
deriving DecidableEq

/-- The exact message text each error renders to in the source. -/
def Err.render : Err → String
  | .len name got => name ++ ": expected 5 numbers, got " ++ toString got
  | .nonNum name => name ++ ": non‑numeric value"
  | .center name v => name ++ " center should be 0, got " ++ toString v
  | .range name v low high =>
    name ++ ": " ++ toString v ++ " out of range (" ++ toString low ++ "-" ++ toString high ++ ")"
  | .dup name v => name ++ ": duplicate number " ++ toString v

/-- The per-token loop of `validate_card` (src/app.py:44-58): `pos` is the
position counter, `seen` the set of already-seen integer values. -/
def loopCheck (name : String) (low high : Int) : List (Option Int) → Nat → List Int → List Err
  | [], _, _ => []
  | num :: rest, pos, seen =>
    match num with
    | none => .nonNum name :: loopCheck name low high rest (pos + 1) seen
    | some v =>
      if name == "N" && pos == 2 then
        (if v ≠ 0 then [.center name v] else []) ++ loopCheck name low high rest (pos + 1) seen
      else
        ((if ¬(low ≤ v ∧ v ≤ high) then [.range name v low high] else []) ++
          (if v ∈ seen then [.dup name v] else [])) ++
        loopCheck name low high rest (pos + 1) (v :: seen)

/-- One column's checks in `validate_card` (src/app.py:39-58). -/
def checkCol (name : String) (numbers : List (Option Int)) (low high : Int) : List Err :=
  if numbers.length ≠ 5 then [.len name numbers.length]
  else loopCheck name low high numbers 0 []

/-- All errors `validate_card` accumulates across the five columns, in
recording order. -/
def cardErrors (b i n g o : List (Option Int)) : List Err :=
  [("B", b, (1 : Int), (15 : Int)), ("I", i, 16, 30), ("N", n, 31, 45),
   ("G", g, 46, 60), ("O", o, 61, 75)].foldl
    (fun errs col => errs ++ checkCol col.1 col.2.1 col.2.2.1 col.2.2.2) []

/-- `validate_card` (src/app.py:25-62): returns `(is_valid, message)`. -/
def validate_card (card_id : String) (b i n g o : List (Option Int)) : Bool × String :=
  if (cardErrors b i n g o).isEmpty then (true, "Card " ++ card_id ++ ": Valid")
  else (false, "Card " ++ card_id ++ ": " ++
    String.intercalate "; " ((cardErrors b i n g o).map Err.render))

/-- One entry of `card_results` in the `validate` handler:
`(card_id, b, i, n, g, o, valid, msg)`. -/
structure CardResult where
  id : String
  b : List (Option Int)
  i : List (Option Int)
  n : List (Option Int)
  g : List (Option Int)
  o : List (Option Int)
  valid : Bool
  msg : String
deriving DecidableEq

/-- A fingerprint: the ordered tuple of the five column token-sequences. -/
abbrev Fp := List (Option Int) × List (Option Int) × List (Option Int) ×
  List (Option Int) × List (Option Int)

/-- `(tuple(b), tuple(i), tuple(n), tuple(g), tuple(o))` (src/app.py:145). -/
def fpOf (r : CardResult) : Fp :=
  (r.b, r.i, r.n, r.g, r.o)

/-- The per-card validation pass of the `validate` handler
(src/app.py:134-139). -/
def resultsOf (cards : List Card) : List CardResult :=
  cards.map (fun c =>
    let vm := validate_card c.id c.b c.i c.n c.g c.o
    { id := c.id, b := c.b, i := c.i, n := c.n, g := c.g, o := c.o,
      valid := vm.1, msg := vm.2 })

/-- Python `enumerate`, starting at index `k`. -/
def enumF : Nat → List α → List (Nat × α)
  | _, [] => []
  | k, a :: l => (k, a) :: enumF (k + 1) l

/-- `fingerprint_map.setdefault(fingerprint, []).append((card_id, idx))` on an
insertion-ordered dictionary, modelled as an association list: append the
entry to an existing key's list, or add the key at the end. -/
def fpInsert (m : List (Fp × List (String × Nat))) (f : Fp) (e : String × Nat) :
    List (Fp × List (String × Nat)) :=
  match m with
  | [] => [(f, [e])]
  | (k, l) :: rest => if k = f then (k, l ++ [e]) :: rest else (k, l) :: fpInsert rest f e

/-- The fingerprint map built in src/app.py:141-146. -/
def buildFpMap (results : List CardResult) : List (Fp × List (String × Nat)) :=
  (enumF 0 results).foldl (fun m p => fpInsert m (fpOf p.2) (p.2.id, p.1)) []

/-- `other_ids = [cid for cid, _ in id_list if cid != card_id]` (src/app.py:155). -/
def otherIds (l : List (String × Nat)) (cid : String) : List String :=
  (l.map Prod.fst).filter (fun c => c != cid)

/-- The per-member update in the duplicate-marking loop (src/app.py:156-164). -/
def applyDup (r : CardResult) (others : List String) : CardResult :=
  let dmsg := "Duplicate of card(s) " ++ String.intercalate ", " others
  if r.valid then { r with valid := false, msg := "Valid but " ++ dmsg }
  else { r with valid := false, msg := r.msg ++ "; " ++ dmsg }

/-- One iteration of the duplicate-marking inner loop: update the result at
index `e.2`, computing the other identifiers against the whole group `orig`. -/
def mgStep (orig : List (String × Nat)) (res : List CardResult) (e : String × Nat) :
    List CardResult :=
  match res.get? e.2 with
  | some r => res.set e.2 (applyDup r (otherIds orig e.1))
  | none => res

/-- Mark every member of one duplicate group (src/app.py:154-164). -/
def markGroup (res : List CardResult) (l : List (String × Nat)) : List CardResult :=
  l.foldl (mgStep l) res

/-- The duplicate-marking pass over the fingerprint map (src/app.py:148-164). -/
def markDuplicates (results : List CardResult) (m : List (Fp × List (String × Nat))) :
    List CardResult :=
  m.foldl (fun res bucket => if 1 < bucket.2.length then markGroup res bucket.2 else res) results

/-- The pure core of the `validate` handler (src/app.py:134-164): per-card
results after duplicate marking, plus the duplicate groups. -/
def validateBatch (cards : List Card) : List CardResult × List (List String) :=
  let results := resultsOf cards
  let m := buildFpMap results
  let groups := (m.filter (fun bucket => 1 < bucket.2.length)).map
    (fun bucket => bucket.2.map Prod.fst)
  (markDuplicates results m, groups)

/-! ### Derived and specification-side definitions -/

/-- What the free-space position of the N column contributes to the error
list, as a function of that token alone. -/
def centerCheck (x : Option Int) : List Err :=
  match x with
  | none => [.nonNum "N"]
  | some v => if v ≠ 0 then [.center "N" v] else []

/-- Recognizes duplicate-value errors. -/
def isDupErr : Err → Bool
  | .dup _ _ => true
  | _ => false

/-- The non-empty fragments of a cell, as the spec describes the Tokenizer:
split on runs of commas/whitespace, dropping empty fragments. -/
def fragmentsOf (cell : String) : List (List Char) :=
  (pySplitRuns cellDelim (pyStrip cell.data)).filter (fun p => p ≠ [])

/-! ### Lemmas about the per-column loop -/

theorem loopCheck_nil (name : String) (lo hi : Int) (pos : Nat) (seen : List Int) :
    loopCheck name lo hi [] pos seen = [] := rfl

theorem loopCheck_cons_none (name : String) (lo hi : Int) (rest : List (Option Int))
    (pos : Nat) (seen : List Int) :
    loopCheck name lo hi (none :: rest) pos seen =
      .nonNum name :: loopCheck name lo hi rest (pos + 1) seen := rfl

theorem loopCheck_cons_some (name : String) (lo hi v : Int) (rest : List (Option Int))
    (pos : Nat) (seen : List Int) :
    loopCheck name lo hi (some v :: rest) pos seen =
      if name == "N" && pos == 2 then
        (if v ≠ 0 then [.center name v] else []) ++ loopCheck name lo hi rest (pos + 1) seen
      else
        ((if ¬(lo ≤ v ∧ v ≤ hi) then [.range name v lo hi] else []) ++
          (if v ∈ seen then [.dup name v] else [])) ++
        loopCheck name lo hi rest (pos + 1) (v :: seen) := rfl

/-- A token at a position other than the N-column free space, in range and
not yet seen, records nothing and only extends `seen`. -/
theorem loopCheck_cons_ok (name : String) (lo hi v : Int) (rest : List (Option Int))
    (pos : Nat) (seen : List Int) (hpos : (name == "N") = false ∨ pos ≠ 2)
    (h1 : lo ≤ v) (h2 : v ≤ hi) (h3 : v ∉ seen) :
    loopCheck name lo hi (some v :: rest) pos seen =
      loopCheck name lo hi rest (pos + 1) (v :: seen) := by
  have hb : (name == "N" && pos == 2) = false := by
    rcases hpos with h | h
    · simp [h]
    · simp [h]
  rw [loopCheck_cons_some, hb]
  simp [h1, h2, h3]

/-- At the free-space position of the N column, the loop contributes exactly
`centerCheck` of the token: `seen` is neither consulted nor extended. -/
theorem loopCheck_center_step (lo hi : Int) (x : Option Int) (rest : List (Option Int))
    (seen : List Int) :
    loopCheck "N" lo hi (x :: rest) 2 seen =
      centerCheck x ++ loopCheck "N" lo hi rest 3 seen := by
  cases x with
  | none => simp [loopCheck_cons_none, centerCheck]
  | some v => rw [loopCheck_cons_some]; simp [centerCheck]

/-- An invalid token anywhere in a column makes the loop record a
non-numeric-value error. -/
theorem loopCheck_nonNum_mem (name : String) (lo hi : Int) :
    ∀ (l : List (Option Int)) (pos : Nat) (seen : List Int) (j : Nat),
      l.get? j = some none → Err.nonNum name ∈ loopCheck name lo hi l pos seen := by
  intro l
  induction l with
  | nil => intro pos seen j h; simp at h
  | cons num rest ih =>
    intro pos seen j h
    cases j with
    | zero =>
      simp at h
      subst h
      simp [loopCheck_cons_none]
    | succ j' =>
      simp only [List.get?] at h
      cases num with
      | none =>
        rw [loopCheck_cons_none]
        exact List.mem_cons_of_mem _ (ih (pos + 1) seen j' h)
      | some v =>
        rw [loopCheck_cons_some]
        by_cases hb : (name == "N" && pos == 2) = true
        · rw [if_pos hb]
          exact List.mem_append_right _ (ih (pos + 1) seen j' h)
        · rw [if_neg hb]
          exact List.mem_append_right _ (ih (pos + 1) (v :: seen) j' h)

/-- A center-mismatch error can only arise in the N column, at the position
`2` counted from the loop's starting position, and only from an integer
token there with that very value. -/
theorem loopCheck_center_mem (name : String) (lo hi : Int) :
    ∀ (l : List (Option Int)) (pos : Nat) (seen : List Int) (nm : String) (v : Int),
      Err.center nm v ∈ loopCheck name lo hi l pos seen →
      nm = name ∧ (name == "N") = true ∧ ∃ j, pos + j = 2 ∧ l.get? j = some (some v) := by
  intro l
  induction l with
  | nil => intro pos seen nm v h; simp [loopCheck_nil] at h
  | cons num rest ih =>
    intro pos seen nm v h
    have step : (∃ j, pos + 1 + j = 2 ∧ rest.get? j = some (some v)) →
        ∃ j, pos + j = 2 ∧ (num :: rest).get? j = some (some v) := by
      rintro ⟨j, hj, hg⟩
      exact ⟨j + 1, by omega, hg⟩
    cases num with
    | none =>
      rw [loopCheck_cons_none] at h
      rcases List.mem_cons.mp h with h | h
      · simp at h
      · obtain ⟨h1, h2, h3⟩ := ih (pos + 1) seen nm v h
        exact ⟨h1, h2, step h3⟩
    | some u =>
      rw [loopCheck_cons_some] at h
      by_cases hb : (name == "N" && pos == 2) = true
      · rw [if_pos hb] at h
        rcases List.mem_append.mp h with h | h
        · by_cases hu : u ≠ 0
          · rw [if_pos hu] at h
            simp at h
            obtain ⟨hnm, hv⟩ := h
            refine ⟨hnm, (Bool.and_eq_true ..).mp hb |>.1, 0, ?_, ?_⟩
            · have hpos2 : pos = 2 := by simpa using (Bool.and_eq_true ..).mp hb |>.2
              omega
            · simp [hv]
          · rw [if_neg hu] at h
            simp at h
        · obtain ⟨h1, h2, h3⟩ := ih (pos + 1) seen nm v h
          exact ⟨h1, h2, step h3⟩
      · rw [if_neg hb] at h
        rcases List.mem_append.mp h with h | h
        · rcases List.mem_append.mp h with h | h
          · by_cases hr : ¬(lo ≤ u ∧ u ≤ hi)
            · rw [if_pos hr] at h; simp at h
            · rw [if_neg hr] at h; simp at h
          · by_cases hs : u ∈ seen
            · rw [if_pos hs] at h; simp at h
            · rw [if_neg hs] at h; simp at h
        · obtain ⟨h1, h2, h3⟩ := ih (pos + 1) (u :: seen) nm v h
          exact ⟨h1, h2, step h3⟩

/-- `cardErrors` is the concatenation of the five columns' error lists: each
column is checked independently of the others. -/
theorem cardErrors_eq (b i n g o : List (Option Int)) :
    cardErrors b i n g o =
      checkCol "B" b 1 15 ++ checkCol "I" i 16 30 ++ checkCol "N" n 31 45 ++
      checkCol "G" g 46 60 ++ checkCol "O" o 61 75 := by
  simp [cardErrors, List.append_assoc]

/-- A column of the wrong length yields exactly its length error. -/
theorem checkCol_wrong_len (name : String) (l : List (Option Int)) (lo hi : Int)
    (h : l.length ≠ 5) : checkCol name l lo hi = [.len name l.length] := by
  unfold checkCol
  rw [if_pos h]

/-- A column of in-range, pairwise-distinct integers disjoint from `seen`
records no error, provided the loop never crosses the free-space position. -/
theorem loopCheck_all_ok (name : String) (lo hi : Int) :
    ∀ (vs : List Int) (pos : Nat) (seen : List Int),
      ((name == "N") = false ∨ 2 < pos) → vs.Nodup →
      (∀ v ∈ vs, (lo ≤ v ∧ v ≤ hi) ∧ v ∉ seen) →
      loopCheck name lo hi (vs.map some) pos seen = [] := by
  intro vs
  induction vs with
  | nil => intro pos seen _ _ _; simp [loopCheck_nil]
  | cons v vs ih =>
    intro pos seen hc hnd hall
    have hv := hall v (List.mem_cons_self ..)
    rw [List.map_cons,
      loopCheck_cons_ok name lo hi v _ pos seen ?_ hv.1.1 hv.1.2 hv.2]
    · refine ih (pos + 1) (v :: seen) ?_ hnd.of_cons ?_
      · rcases hc with h | h
        · exact Or.inl h
        · exact Or.inr (by omega)
      · intro u hu
        refine ⟨(hall u (List.mem_cons_of_mem _ hu)).1, ?_⟩
        simp only [List.mem_cons, not_or]
        exact ⟨fun huv => (List.nodup_cons.mp hnd).1 (huv ▸ hu),
          (hall u (List.mem_cons_of_mem _ hu)).2⟩
    · rcases hc with h | h
      · exact Or.inl h
      · exact Or.inr (by omega)

/-- A non-N column whose five integers are in range and pairwise distinct
records no error. -/
theorem checkCol_ok (name : String) (lo hi : Int) (vs : List Int) (h5 : vs.length = 5)
    (hname : (name == "N") = false) (hnd : vs.Nodup)
    (hin : ∀ v ∈ vs, lo ≤ v ∧ v ≤ hi) :
    checkCol name (vs.map some) lo hi = [] := by
  unfold checkCol
  rw [if_neg (by simp [h5])]
  exact loopCheck_all_ok name lo hi vs 0 [] (Or.inl hname) hnd
    (fun v hv => ⟨hin v hv, by simp⟩)

/-- An N column whose third value is `0` and whose other four values are in
range and pairwise distinct records no error. -/
theorem checkCol_N_ok (lo hi : Int) (n0 n1 n3 n4 : Int)
    (hin : ∀ v ∈ [n0, n1, n3, n4], lo ≤ v ∧ v ≤ hi)
    (hnd : [n0, n1, n3, n4].Nodup) :
    checkCol "N" [some n0, some n1, some 0, some n3, some n4] lo hi = [] := by
  have h0 := hin n0 (by simp)
  have h1 := hin n1 (by simp)
  have h3 := hin n3 (by simp)
  have h4 := hin n4 (by simp)
  simp only [List.nodup_cons, List.mem_cons, List.not_mem_nil, or_false,
    List.mem_singleton, not_or, List.nodup_nil, and_true, List.not_mem_nil,
    not_false_iff] at hnd
  obtain ⟨⟨d01, d03, d04⟩, ⟨d13, d14⟩, d34⟩ := hnd
  unfold checkCol
  rw [if_neg (by simp)]
  rw [loopCheck_cons_ok "N" lo hi n0 _ 0 [] (Or.inr (by omega)) h0.1 h0.2 (by simp)]
  rw [loopCheck_cons_ok "N" lo hi n1 _ 1 [n0] (Or.inr (by omega)) h1.1 h1.2
    (by simp only [List.mem_singleton]; exact fun h => d01 h.symm)]
  rw [loopCheck_center_step]
  rw [show centerCheck (some 0) = [] from rfl]
  rw [List.nil_append]
  rw [loopCheck_cons_ok "N" lo hi n3 _ 3 [n1, n0] (Or.inr (by omega)) h3.1 h3.2 ?_]
  rw [loopCheck_cons_ok "N" lo hi n4 _ 4 [n3, n1, n0] (Or.inr (by omega)) h4.1 h4.2 ?_]
  · exact loopCheck_nil "N" lo hi 5 _
  · simp only [List.mem_cons, List.not_mem_nil, or_false, not_or]
    exact ⟨fun h => d34 h.symm, fun h => d14 h.symm, fun h => d04 h.symm⟩
  · simp only [List.mem_cons, List.not_mem_nil, or_false, not_or]
    exact ⟨fun h => d13 h.symm, fun h => d03 h.symm⟩

/-- A some-token at a position other than the N-column free space records the
range and duplicate checks and extends `seen`. -/
theorem loopCheck_cons_some_ne2 (name : String) (lo hi v : Int) (rest : List (Option Int))
    (pos : Nat) (seen : List Int) (hpos : (name == "N") = false ∨ pos ≠ 2) :
    loopCheck name lo hi (some v :: rest) pos seen =
      ((if ¬(lo ≤ v ∧ v ≤ hi) then [.range name v lo hi] else []) ++
        (if v ∈ seen then [.dup name v] else [])) ++
      loopCheck name lo hi rest (pos + 1) (v :: seen) := by
  have hb : (name == "N" && pos == 2) = false := by
    rcases hpos with h | h <;> simp [h]
  rw [loopCheck_cons_some, hb]
  simp

/-- Columns other than N never record a center-mismatch error. -/
theorem center_not_mem_checkCol_of_name (name : String) (l : List (Option Int)) (lo hi : Int)
    (h : (name == "N") = false) (nm : String) (v : Int) :
    Err.center nm v ∉ checkCol name l lo hi := by
  intro hc
  unfold checkCol at hc
  by_cases h5 : l.length ≠ 5
  · rw [if_pos h5] at hc
    simp at hc
  · rw [if_neg h5] at hc
    have := loopCheck_center_mem name lo hi l 0 [] nm v hc
    rw [h] at this
    exact Bool.false_ne_true this.2.1

/-- The N column records no center-mismatch error when its token at index 2
is the invalid marker. -/
theorem center_not_mem_checkCol_N_none (l : List (Option Int)) (lo hi : Int)
    (h2 : l.get? 2 = some none) (nm : String) (v : Int) :
    Err.center nm v ∉ checkCol "N" l lo hi := by
  intro hc
  unfold checkCol at hc
  by_cases h5 : l.length ≠ 5
  · rw [if_pos h5] at hc
    simp at hc
  · rw [if_neg h5] at hc
    obtain ⟨-, -, j, hj, hg⟩ := loopCheck_center_mem "N" lo hi l 0 [] nm v hc
    have hj2 : j = 2 := by omega
    rw [hj2, h2] at hg
    simp at hg

/-! ### Claim theorems -/

/-- C1, counterexample: for the Card Record with N = `[31, 32, invalid, 34, 35]`
(and otherwise perfect columns), the Validator records exactly the
non-numeric-value error for the N column — not a center-mismatch error as the
claim states: the `num is None` test precedes the free-space branch in
`validate_card`. -/
theorem c1_counterexample :
    cardErrors [some 1, some 2, some 3, some 4, some 5]
        [some 16, some 17, some 18, some 19, some 20]
        [some 31, some 32, none, some 34, some 35]
        [some 46, some 47, some 48, some 49, some 50]
        [some 61, some 62, some 63, some 64, some 65] = [Err.nonNum "N"] ∧
    validate_card "1" [some 1, some 2, some 3, some 4, some 5]
        [some 16, some 17, some 18, some 19, some 20]
        [some 31, some 32, none, some 34, some 35]
        [some 46, some 47, some 48, some 49, some 50]
        [some 61, some 62, some 63, some 64, some 65] =
      (false, "Card 1: N: non‑numeric value") := by
  constructor <;> rfl

/-- C1, amended: for every Card Record whose N column has length 5 and whose
token at the free-space position (index 2) is the invalid-token marker, the
Validator records a non-numeric-value error, and no center-mismatch error is
recorded anywhere on the card. -/
theorem c1_invalid_free_space (b i g o : List (Option Int)) (x y z w : Option Int) :
    Err.nonNum "N" ∈ cardErrors b i [x, y, none, z, w] g o ∧
    ∀ (nm : String) (v : Int), Err.center nm v ∉ cardErrors b i [x, y, none, z, w] g o := by
  constructor
  · have hN : Err.nonNum "N" ∈ checkCol "N" [x, y, none, z, w] 31 45 := by
      unfold checkCol
      rw [if_neg (by simp)]
      exact loopCheck_nonNum_mem "N" 31 45 _ 0 [] 2 rfl
    rw [cardErrors_eq]
    simp only [List.mem_append]
    tauto
  · intro nm v hmem
    rw [cardErrors_eq] at hmem
    simp only [List.mem_append] at hmem
    rcases hmem with ((((h | h) | h) | h) | h)
    · exact center_not_mem_checkCol_of_name "B" b 1 15 rfl nm v h
    · exact center_not_mem_checkCol_of_name "I" i 16 30 rfl nm v h
    · exact center_not_mem_checkCol_N_none [x, y, none, z, w] 31 45 rfl nm v h
    · exact center_not_mem_checkCol_of_name "G" g 46 60 rfl nm v h
    · exact center_not_mem_checkCol_of_name "O" o 61 75 rfl nm v h

/-- C6: a column whose token-sequence length is not 5 contributes exactly its
single length error (so no range, duplicate, non-numeric or center error for
that column), and the card's error list is the independent concatenation of
the five columns' error lists, so the other columns are still checked fully. -/
theorem c6_wrong_length_column (b i n g o l : List (Option Int)) (name : String)
    (lo hi : Int) (h : l.length ≠ 5) :
    checkCol name l lo hi = [Err.len name l.length] ∧
    cardErrors b i n g o =
      checkCol "B" b 1 15 ++ checkCol "I" i 16 30 ++ checkCol "N" n 31 45 ++
      checkCol "G" g 46 60 ++ checkCol "O" o 61 75 :=
  ⟨checkCol_wrong_len name l lo hi h, cardErrors_eq b i n g o⟩

theorem c6_wrong_length_column_witness :
    checkCol "B" [some 1, some 2, some 3, some 4] 1 15 = [Err.len "B" 4] ∧
    cardErrors [some 1, some 2, some 3, some 4] [] [] [] [] =
      checkCol "B" [some 1, some 2, some 3, some 4] 1 15 ++ checkCol "I" [] 16 30 ++
      checkCol "N" [] 31 45 ++ checkCol "G" [] 46 60 ++ checkCol "O" [] 61 75 :=
  c6_wrong_length_column [some 1, some 2, some 3, some 4] [] [] [] []
    [some 1, some 2, some 3, some 4] "B" 1 15 (by decide)

/-- C10: at the free-space position (index 2) of an N column of length 5, the
loop contributes only `centerCheck` of that token and passes `seen` through
unchanged — the center value is neither added to the seen-set nor compared
against it — and consequently the duplicate-value errors of the N column do
not depend on the center value at all. -/
theorem c10_center_not_in_seen :
    (∀ (x : Option Int) (rest : List (Option Int)) (seen : List Int),
      loopCheck "N" 31 45 (x :: rest) 2 seen =
        centerCheck x ++ loopCheck "N" 31 45 rest 3 seen) ∧
    (∀ a b c c' d e : Option Int,
      (checkCol "N" [a, b, c, d, e] 31 45).filter isDupErr =
      (checkCol "N" [a, b, c', d, e] 31 45).filter isDupErr) := by
  constructor
  · exact loopCheck_center_step 31 45
  · have hcc : ∀ x : Option Int, (centerCheck x).filter isDupErr = [] := by
      intro x
      cases x with
      | none => rfl
      | some v =>
        by_cases h : v ≠ 0 <;> simp [centerCheck, h, isDupErr]
    have key : ∀ (c c' : Option Int) (rest : List (Option Int)) (seen : List Int),
        (loopCheck "N" 31 45 (c :: rest) 2 seen).filter isDupErr =
        (loopCheck "N" 31 45 (c' :: rest) 2 seen).filter isDupErr := by
      intro c c' rest seen
      rw [loopCheck_center_step, loopCheck_center_step, List.filter_append,
        List.filter_append, hcc, hcc]
    have fnn : ∀ t : List Err, (Err.nonNum "N" :: t).filter isDupErr = t.filter isDupErr :=
      fun _ => rfl
    intro a b c c' d e
    have pos1 : ∀ (bb c c' : Option Int) (seen : List Int),
        (loopCheck "N" 31 45 (bb :: c :: [d, e]) 1 seen).filter isDupErr =
        (loopCheck "N" 31 45 (bb :: c' :: [d, e]) 1 seen).filter isDupErr := by
      intro bb c c' seen
      cases bb with
      | none =>
        rw [loopCheck_cons_none, loopCheck_cons_none, fnn, fnn]
        exact key c c' [d, e] seen
      | some vb =>
        rw [loopCheck_cons_some_ne2 "N" 31 45 vb _ 1 seen (Or.inr (by omega)),
          loopCheck_cons_some_ne2 "N" 31 45 vb _ 1 seen (Or.inr (by omega))]
        norm_num [List.filter_append, List.append_assoc]
        rw [key c c' [d, e] (vb :: seen)]
    unfold checkCol
    rw [if_neg (by simp), if_neg (by simp)]
    cases a with
    | none =>
      rw [loopCheck_cons_none, loopCheck_cons_none, fnn, fnn]
      exact pos1 b c c' []
    | some va =>
      rw [loopCheck_cons_some_ne2 "N" 31 45 va _ 0 [] (Or.inr (by omega)),
        loopCheck_cons_some_ne2 "N" 31 45 va _ 0 [] (Or.inr (by omega))]
      norm_num [List.filter_append, List.append_assoc]
      rw [pos1 b c c' [va]]

/-- C4: a card whose five columns each hold exactly 5 integer tokens, in range
at every checked position and duplicate-free, with the N column's third value
`0` (exempt from the range check), is valid with a message ending in "Valid";
and on the Scenario A input the whole pipeline yields exactly one valid card
with message "Card 1: Valid" and no duplicate group. -/
theorem c4_well_formed_card_valid (card_id : String) (bvs ivs gvs ovs : List Int)
    (n0 n1 n3 n4 : Int)
    (hb5 : bvs.length = 5) (hbnd : bvs.Nodup) (hbin : ∀ v ∈ bvs, 1 ≤ v ∧ v ≤ 15)
    (hi5 : ivs.length = 5) (hind : ivs.Nodup) (hiin : ∀ v ∈ ivs, 16 ≤ v ∧ v ≤ 30)
    (hg5 : gvs.length = 5) (hgnd : gvs.Nodup) (hgin : ∀ v ∈ gvs, 46 ≤ v ∧ v ≤ 60)
    (ho5 : ovs.length = 5) (hond : ovs.Nodup) (hoin : ∀ v ∈ ovs, 61 ≤ v ∧ v ≤ 75)
    (hnin : ∀ v ∈ [n0, n1, n3, n4], 31 ≤ v ∧ v ≤ 45) (hnnd : [n0, n1, n3, n4].Nodup) :
    validate_card card_id (bvs.map some) (ivs.map some)
        [some n0, some n1, some 0, some n3, some n4] (gvs.map some) (ovs.map some) =
      (true, "Card " ++ card_id ++ ": Valid") ∧
    (∃ p : String, "Card " ++ card_id ++ ": Valid" = p ++ "Valid") ∧
    (validateBatch (parse_text_table
        "Card ID B I N G O\n1 1,2,3,4,5 16,17,18,19,20 31,32,0,34,35 46,47,48,49,50 61,62,63,64,65")).1.map
      (fun r => (r.valid, r.msg)) = [(true, "Card 1: Valid")] ∧
    (validateBatch (parse_text_table
        "Card ID B I N G O\n1 1,2,3,4,5 16,17,18,19,20 31,32,0,34,35 46,47,48,49,50 61,62,63,64,65")).2 = [] := by
  have herrs : cardErrors (bvs.map some) (ivs.map some)
      [some n0, some n1, some 0, some n3, some n4] (gvs.map some) (ovs.map some) = [] := by
    rw [cardErrors_eq, checkCol_ok "B" 1 15 bvs hb5 rfl hbnd hbin,
      checkCol_ok "I" 16 30 ivs hi5 rfl hind hiin,
      checkCol_N_ok 31 45 n0 n1 n3 n4 hnin hnnd,
      checkCol_ok "G" 46 60 gvs hg5 rfl hgnd hgin,
      checkCol_ok "O" 61 75 ovs ho5 rfl hond hoin]
    rfl
  refine ⟨?_, ⟨"Card " ++ card_id ++ ": ", ?_⟩, ?_, ?_⟩
  · unfold validate_card
    rw [herrs]
    rfl
  · rw [String.append_assoc ("Card " ++ card_id) ": " "Valid"]
    rfl
  · rfl
  · rfl

theorem c4_well_formed_card_valid_witness :
    validate_card "7" ([1, 2, 3, 4, 5].map some) ([16, 17, 18, 19, 20].map some)
        [some 31, some 32, some 0, some 34, some 35]
        ([46, 47, 48, 49, 50].map some) ([61, 62, 63, 64, 65].map some) =
      (true, "Card " ++ "7" ++ ": Valid") ∧
    (∃ p : String, "Card " ++ "7" ++ ": Valid" = p ++ "Valid") ∧
    (validateBatch (parse_text_table
        "Card ID B I N G O\n1 1,2,3,4,5 16,17,18,19,20 31,32,0,34,35 46,47,48,49,50 61,62,63,64,65")).1.map
      (fun r => (r.valid, r.msg)) = [(true, "Card 1: Valid")] ∧
    (validateBatch (parse_text_table
        "Card ID B I N G O\n1 1,2,3,4,5 16,17,18,19,20 31,32,0,34,35 46,47,48,49,50 61,62,63,64,65")).2 = [] :=
  c4_well_formed_card_valid "7" [1, 2, 3, 4, 5] [16, 17, 18, 19, 20]
    [46, 47, 48, 49, 50] [61, 62, 63, 64, 65] 31 32 34 35
    (by decide) (by decide) (by decide) (by decide) (by decide) (by decide)
    (by decide) (by decide) (by decide) (by decide) (by decide) (by decide)
    (by decide) (by decide)

/-- The `parse_numbers` loop is exactly: drop empty fragments, tokenize the
rest in order. -/
theorem pnLoop_eq (ps : List (List Char)) :
    pnLoop ps = (ps.filter (fun p => p ≠ [])).map pyInt := by
  induction ps with
  | nil => rfl
  | cons p rest ih =>
    by_cases hp : p = []
    · simp [pnLoop, hp, ih, List.filter_cons]
    · simp [pnLoop, hp, ih, List.filter_cons]

/-- Characters of a stripped string come from the original string. -/
theorem mem_pyStrip {c : Char} {s : List Char} (h : c ∈ pyStrip s) : c ∈ s := by
  unfold pyStrip at h
  rw [List.mem_reverse] at h
  have h1 := ((s.dropWhile pySpace).reverse.dropWhile_sublist pySpace).mem h
  rw [List.mem_reverse] at h1
  exact (s.dropWhile_sublist pySpace).mem h1

/-- Splitting a string of delimiters only produces empty fragments. -/
theorem srGo_all_delim (d : Char → Bool) :
    ∀ (s : List Char), (∀ c ∈ s, d c = true) → ∀ (inRun : Bool),
      ∀ p ∈ srGo d inRun [] s, p = [] := by
  intro s
  induction s with
  | nil =>
    intro _ inRun p hp
    simp [srGo] at hp
    exact hp
  | cons c rest ih =>
    intro hall inRun p hp
    have hc : d c = true := hall c (List.mem_cons_self ..)
    rw [srGo, hc] at hp
    have hrest : ∀ u ∈ rest, d u = true := fun u hu => hall u (List.mem_cons_of_mem _ hu)
    cases inRun with
    | true =>
      simp only [if_true] at hp
      exact ih hrest true p hp
    | false =>
      simp only [Bool.false_eq_true, if_false] at hp
      rcases List.mem_cons.mp hp with h | h
      · simpa using h
      · exact ih hrest true p h

/-- C7: the Tokenizer is total by construction, an empty or
whitespace/comma-only cell yields an empty token sequence, and in general the
tokens are exactly the non-empty fragments of the cell mapped through integer
parsing, with `none` marking each unparsable fragment in position. -/
theorem c7_tokenizer_total (cell : String) :
    parse_numbers cell = (fragmentsOf cell).map pyInt ∧
    ((∀ ch ∈ cell.data, cellDelim ch = true) → parse_numbers cell = []) := by
  have main : parse_numbers cell = (fragmentsOf cell).map pyInt := by
    unfold parse_numbers fragmentsOf
    by_cases h : cell.data = [] ∨ pyStrip cell.data = []
    · rw [if_pos h]
      have hs : pyStrip cell.data = [] := by
        rcases h with h | h
        · rw [h]; rfl
        · exact h
      rw [hs]
      rfl
    · rw [if_neg h]
      exact pnLoop_eq _
  refine ⟨main, fun hall => ?_⟩
  rw [main]
  suffices h : fragmentsOf cell = [] by rw [h]; rfl
  unfold fragmentsOf
  rw [List.filter_eq_nil_iff]
  intro p hp
  have hall' : ∀ c ∈ pyStrip cell.data, cellDelim c = true :=
    fun c hc => hall c (mem_pyStrip hc)
  have := srGo_all_delim cellDelim (pyStrip cell.data) hall' false p hp
  simp [this]

theorem c7_tokenizer_total_witness :
    (parse_numbers " ,8, x ,," = (fragmentsOf " ,8, x ,,").map pyInt ∧
      parse_numbers " ,8, x ,," = [some 8, none]) ∧
    ((∀ ch ∈ " ,, ,".data, cellDelim ch = true) ∧ parse_numbers " ,, ," = []) :=
  ⟨⟨(c7_tokenizer_total " ,8, x ,,").1, by decide⟩,
    ⟨by decide, (c7_tokenizer_total " ,, ,").2 (by decide)⟩⟩

/-! ### Lemmas about the table parser's line machine -/

/-- After the latch has fired, a non-blank, non-header line with at least 6
fields emits its Card Record. -/
theorem ptGo_cons_data (line : List Char) (rest : List (List Char))
    (hnb : pyStrip line ≠ []) (hnh : isHeaderLine (pyStrip line) = false)
    (h6 : ¬(pySplitRuns pySpace (pyStrip line)).length < 6) :
    ptGo (line :: rest) true =
      mkRec (pySplitRuns pySpace (pyStrip line)) :: ptGo rest true := by
  rw [ptGo]
  simp only [if_neg hnb, hnh, Bool.false_eq_true, if_false, if_true, if_neg h6]

/-- After the latch has fired, a non-blank, non-header line with fewer than 6
fields is skipped. -/
theorem ptGo_cons_short (line : List Char) (rest : List (List Char))
    (hnb : pyStrip line ≠ []) (hnh : isHeaderLine (pyStrip line) = false)
    (h6 : (pySplitRuns pySpace (pyStrip line)).length < 6) :
    ptGo (line :: rest) true = ptGo rest true := by
  rw [ptGo]
  simp only [if_neg hnb, hnh, Bool.false_eq_true, if_false, if_true, if_pos h6]

/-- `parts[k]` only looks at the first `n` fields when `k < n`. -/
theorem getF_take (ps : List (List Char)) :
    ∀ (k n : Nat), k < n → getF (ps.take n) k = getF ps k := by
  induction ps with
  | nil => intro k n _; simp [getF]
  | cons p ps ih =>
    intro k n hk
    cases n with
    | zero => omega
    | succ n' =>
      cases k with
      | zero => simp [getF]
      | succ k' =>
        simp only [List.take_succ_cons, getF, List.getD_cons_succ]
        exact ih k' n' (by omega)

/-! ### C3 and C9 -/

/-- C3, counterexample: "Card 1 2 3 4 5 6" occurs after the latch has fired,
is non-blank and splits into 7 ≥ 6 fields, yet no Card Record is emitted for
it (it matches the header pattern, so it re-fires the latch and is skipped),
contradicting the claim that only lines with fewer than 6 fields are skipped. -/
theorem c3_counterexample :
    parse_text_table "card hdr\nCard 1 2 3 4 5 6" = [] ∧
    (pySplitRuns pySpace (pyStrip "Card 1 2 3 4 5 6".data)).length = 7 := by
  constructor <;> rfl

/-- C3, amended: after the latch has fired, each non-blank line *that does not
itself match the header pattern* is split on whitespace runs into fields; with
at least 6 fields a Card Record is emitted from fields 1-6, and with fewer
than 6 the line is skipped (header-matching lines are also skipped, re-firing
the latch). -/
theorem c3_post_latch_line (line : List Char) (rest : List (List Char))
    (hnb : pyStrip line ≠ []) (hnh : isHeaderLine (pyStrip line) = false) :
    (6 ≤ (pySplitRuns pySpace (pyStrip line)).length →
      ptGo (line :: rest) true =
        mkRec (pySplitRuns pySpace (pyStrip line)) :: ptGo rest true) ∧
    ((pySplitRuns pySpace (pyStrip line)).length < 6 →
      ptGo (line :: rest) true = ptGo rest true) :=
  ⟨fun h6 => ptGo_cons_data line rest hnb hnh (by omega),
    fun h6 => ptGo_cons_short line rest hnb hnh h6⟩

theorem c3_post_latch_line_witness :
    ptGo ["9 1 2 3 4 5".data, "9 1 2 3 4".data] true = [mkRec (pySplitRuns pySpace (pyStrip "9 1 2 3 4 5".data))] :=
  by
  rw [(c3_post_latch_line "9 1 2 3 4 5".data ["9 1 2 3 4".data] (by decide) (by decide)).1
    (by decide)]
  rw [(c3_post_latch_line "9 1 2 3 4".data [] (by decide) (by decide)).2 (by decide)]
  rfl

/-- C9, counterexample: "cArD 1 2 3 4 5 6 7" occurs after the latch has
fired and splits into 8 > 6 fields, yet no Card Record is emitted for it
(it matches the header pattern case-insensitively), contradicting the claim
that every post-header line with more than 6 fields emits a record. -/
theorem c9_counterexample :
    parse_text_table "card hdr\ncArD 1 2 3 4 5 6 7" = [] ∧
    (pySplitRuns pySpace (pyStrip "cArD 1 2 3 4 5 6 7".data)).length = 8 := by
  constructor <;> rfl

/-- C9, amended: after the latch has fired, a non-blank line *that does not
match the header pattern* and splits into more than 6 fields still emits a
Card Record, and that record is built from the first 6 fields alone — the
extra fields are ignored. -/
theorem c9_extra_fields_ignored (line : List Char) (rest : List (List Char))
    (hnb : pyStrip line ≠ []) (hnh : isHeaderLine (pyStrip line) = false)
    (hgt : 6 < (pySplitRuns pySpace (pyStrip line)).length) :
    ptGo (line :: rest) true =
      mkRec (pySplitRuns pySpace (pyStrip line)) :: ptGo rest true ∧
    mkRec (pySplitRuns pySpace (pyStrip line)) =
      mkRec ((pySplitRuns pySpace (pyStrip line)).take 6) := by
  refine ⟨ptGo_cons_data line rest hnb hnh (by omega), ?_⟩
  unfold mkRec
  rw [getF_take _ 0 6 (by omega), getF_take _ 1 6 (by omega), getF_take _ 2 6 (by omega),
    getF_take _ 3 6 (by omega), getF_take _ 4 6 (by omega), getF_take _ 5 6 (by omega)]

theorem c9_extra_fields_ignored_witness :
    ptGo ["9 1 2 3 4 5 6 7".data] true =
      [mkRec (pySplitRuns pySpace (pyStrip "9 1 2 3 4 5 6 7".data))] ∧
    mkRec (pySplitRuns pySpace (pyStrip "9 1 2 3 4 5 6 7".data)) =
      mkRec ((pySplitRuns pySpace (pyStrip "9 1 2 3 4 5 6 7".data)).take 6) := by
  have h := c9_extra_fields_ignored "9 1 2 3 4 5 6 7".data [] (by decide) (by decide) (by decide)
  exact ⟨h.1, h.2⟩

/-! ### Specification-side view of the fingerprint grouping -/

/-- The distinct fingerprints of a batch in first-encounter order. -/
def dedupF (l : List Fp) : List Fp :=
  l.foldl (fun acc a => if a ∈ acc then acc else acc ++ [a]) []

/-- The enumerated results carrying fingerprint `f`, in batch order. -/
def entriesWith (es : List (Nat × CardResult)) (f : Fp) : List (Nat × CardResult) :=
  es.filter (fun p => fpOf p.2 = f)

/-- The `(identifier, index)` bucket belonging to fingerprint `f`. -/
def bucketOf (es : List (Nat × CardResult)) (f : Fp) : List (String × Nat) :=
  (entriesWith es f).map (fun p => (p.2.id, p.1))

/-- The fingerprint map described extensionally: keys in first-encounter
order, each with its batch-order bucket. -/
def specMap (es : List (Nat × CardResult)) : List (Fp × List (String × Nat)) :=
  (dedupF (es.map (fun p => fpOf p.2))).map (fun f => (f, bucketOf es f))

/-- The fold that builds the fingerprint map from an arbitrary entry list. -/
def bmapF (es : List (Nat × CardResult)) : List (Fp × List (String × Nat)) :=
  es.foldl (fun m p => fpInsert m (fpOf p.2) (p.2.id, p.1)) []

/-- The identifiers of the batch members carrying fingerprint `f`, in batch
order. -/
def groupIdsOf (results : List CardResult) (f : Fp) : List String :=
  (bucketOf (enumF 0 results) f).map Prod.fst

/-- The duplicate groups described extensionally: distinct fingerprints in
first-encounter order, keeping those with at least two members, each group
listing its members' identifiers in batch order. -/
def specGroups (results : List CardResult) : List (List String) :=
  ((dedupF (results.map fpOf)).filter
    (fun f => 1 < (groupIdsOf results f).length)).map (fun f => groupIdsOf results f)

/-! ### The fingerprint map is the extensional grouping -/

theorem mem_dedupF_foldl (l : List Fp) :
    ∀ (init : List Fp) (a : Fp),
      a ∈ l.foldl (fun acc x => if x ∈ acc then acc else acc ++ [x]) init ↔
      a ∈ init ∨ a ∈ l := by
  induction l with
  | nil => intro init a; simp
  | cons x l ih =>
    intro init a
    rw [List.foldl_cons, ih]
    by_cases hx : x ∈ init
    · rw [if_pos hx]
      constructor
      · rintro (h | h)
        · exact Or.inl h
        · exact Or.inr (List.mem_cons_of_mem _ h)
      · rintro (h | h)
        · exact Or.inl h
        · rcases List.mem_cons.mp h with rfl | h
          · exact Or.inl hx
          · exact Or.inr h
    · rw [if_neg hx]
      simp only [List.mem_append, List.mem_singleton, List.mem_cons]
      tauto

theorem mem_dedupF (l : List Fp) (a : Fp) : a ∈ dedupF l ↔ a ∈ l := by
  unfold dedupF
  rw [mem_dedupF_foldl]
  simp

theorem nodup_dedupF_foldl (l : List Fp) :
    ∀ (init : List Fp), init.Nodup →
      (l.foldl (fun acc x => if x ∈ acc then acc else acc ++ [x]) init).Nodup := by
  induction l with
  | nil => intro init h; exact h
  | cons x l ih =>
    intro init h
    rw [List.foldl_cons]
    by_cases hx : x ∈ init
    · rw [if_pos hx]; exact ih init h
    · rw [if_neg hx]
      refine ih _ ?_
      rw [List.nodup_append]
      refine ⟨h, List.nodup_singleton x, ?_⟩
      intro a ha hb
      rw [List.mem_singleton] at hb
      subst hb
      exact hx ha

theorem nodup_dedupF (l : List Fp) : (dedupF l).Nodup :=
  nodup_dedupF_foldl l [] List.nodup_nil

theorem dedupF_snoc (l : List Fp) (a : Fp) :
    dedupF (l ++ [a]) = if a ∈ l then dedupF l else dedupF l ++ [a] := by
  unfold dedupF
  rw [List.foldl_append, List.foldl_cons, List.foldl_nil]
  simp only [mem_dedupF_foldl l [] a, List.not_mem_nil, false_or]

theorem fpInsert_not_mem (m : List (Fp × List (String × Nat))) (f : Fp) (e : String × Nat)
    (h : f ∉ m.map Prod.fst) : fpInsert m f e = m ++ [(f, [e])] := by
  induction m with
  | nil => rfl
  | cons kv rest ih =>
    have hk : kv.1 ≠ f := by
      intro hc
      exact h (by simp [hc])
    rw [show fpInsert (kv :: rest) f e = (kv.1, kv.2) :: fpInsert rest f e from by
      rw [fpInsert]; rw [if_neg hk]]
    rw [ih (fun hc => h (List.mem_cons_of_mem _ hc))]
    rfl

theorem fpInsert_mem (m : List (Fp × List (String × Nat))) (f : Fp) (e : String × Nat)
    (hnd : (m.map Prod.fst).Nodup) (h : f ∈ m.map Prod.fst) :
    fpInsert m f e = m.map (fun kv => if kv.1 = f then (kv.1, kv.2 ++ [e]) else kv) := by
  induction m with
  | nil => simp at h
  | cons kv rest ih =>
    by_cases hk : kv.1 = f
    · rw [show fpInsert (kv :: rest) f e = (kv.1, kv.2 ++ [e]) :: rest from by
        rw [fpInsert]; rw [if_pos hk]]
      rw [List.map_cons, if_pos hk]
      have hrest : ∀ kv' ∈ rest, (fun kv' => if kv'.1 = f then (kv'.1, kv'.2 ++ [e]) else kv') kv' = kv' := by
        intro kv' hm
        have hne : kv'.1 ≠ f := by
          intro hc
          have h1 : kv.1 ∉ rest.map Prod.fst := by
            rw [List.map_cons, List.nodup_cons] at hnd
            exact hnd.1
          exact h1 (by rw [hk, ← hc]; exact List.mem_map.mpr ⟨kv', hm, rfl⟩)
        simp [hne]
      rw [List.map_congr_left hrest]
      simp
    · rw [show fpInsert (kv :: rest) f e = (kv.1, kv.2) :: fpInsert rest f e from by
        rw [fpInsert]; rw [if_neg hk]]
      have hf : f ∈ rest.map Prod.fst := by
        rw [List.map_cons] at h
        rcases List.mem_cons.mp h with hc | hc
        · exact absurd hc.symm hk
        · exact hc
      rw [ih (by rw [List.map_cons, List.nodup_cons] at hnd; exact hnd.2) hf]
      rw [List.map_cons, if_neg hk]

theorem entriesWith_snoc (es : List (Nat × CardResult)) (x : Nat × CardResult) (f : Fp) :
    entriesWith (es ++ [x]) f =
      entriesWith es f ++ (if fpOf x.2 = f then [x] else []) := by
  unfold entriesWith
  rw [List.filter_append]
  congr 1
  by_cases h : fpOf x.2 = f
  · simp [h]
  · simp [h]

theorem bucketOf_snoc (es : List (Nat × CardResult)) (x : Nat × CardResult) (f : Fp) :
    bucketOf (es ++ [x]) f =
      bucketOf es f ++ (if fpOf x.2 = f then [(x.2.id, x.1)] else []) := by
  unfold bucketOf
  rw [entriesWith_snoc, List.map_append]
  congr 1
  by_cases h : fpOf x.2 = f
  · rw [if_pos h, if_pos h]; rfl
  · rw [if_neg h, if_neg h]; rfl

/-- The insertion-ordered fingerprint map built by folding `fpInsert` is
exactly the extensional grouping: keys are the distinct fingerprints in
first-encounter order, and each key's bucket lists its entries in fold
order. -/
theorem bmapF_eq (es : List (Nat × CardResult)) : bmapF es = specMap es := by
  induction es using List.reverseRecOn with
  | nil => rfl
  | append_singleton es x ih =>
    have hfold : bmapF (es ++ [x]) = fpInsert (bmapF es) (fpOf x.2) (x.2.id, x.1) := by
      unfold bmapF
      rw [List.foldl_append, List.foldl_cons, List.foldl_nil]
    have hkeys : (specMap es).map Prod.fst = dedupF (es.map (fun p => fpOf p.2)) := by
      unfold specMap
      rw [List.map_map]
      rw [show (Prod.fst ∘ fun f => (f, bucketOf es f)) = id from rfl, List.map_id]
    have hfps : (es ++ [x]).map (fun p => fpOf p.2) =
        es.map (fun p => fpOf p.2) ++ [fpOf x.2] := by
      rw [List.map_append]
      rfl
    rw [hfold, ih]
    by_cases hmem : fpOf x.2 ∈ es.map (fun p => fpOf p.2)
    · rw [fpInsert_mem _ _ _ (by rw [hkeys]; exact nodup_dedupF _)
        (by rw [hkeys]; exact (mem_dedupF _ _).mpr hmem)]
      unfold specMap
      rw [hfps, dedupF_snoc, if_pos hmem, List.map_map]
      apply List.map_congr_left
      intro f hf
      by_cases hfx : f = fpOf x.2
      · subst hfx
        simp [bucketOf_snoc]
      · have h1 : fpOf x.2 ≠ f := fun hc => hfx hc.symm
        simp [hfx, h1, bucketOf_snoc]
    · rw [fpInsert_not_mem _ _ _
        (by rw [hkeys]; intro hc; exact hmem ((mem_dedupF _ _).mp hc))]
      unfold specMap
      rw [hfps, dedupF_snoc, if_neg hmem, List.map_append]
      congr 1
      · apply List.map_congr_left
        intro f hf
        have hfx : fpOf x.2 ≠ f := by
          intro hc
          exact hmem (hc ▸ (mem_dedupF _ _).mp hf)
        rw [bucketOf_snoc, if_neg hfx, List.append_nil]
      · have hempty : bucketOf es (fpOf x.2) = [] := by
          unfold bucketOf entriesWith
          rw [List.filter_eq_nil_iff.mpr ?_]
          · rfl
          · intro p hp hc
            rw [decide_eq_true_eq] at hc
            exact hmem (List.mem_map.mpr ⟨p, hp, hc⟩)
        rw [show List.map (fun f => (f, bucketOf (es ++ [x]) f)) [fpOf x.2] =
          [(fpOf x.2, bucketOf (es ++ [x]) (fpOf x.2))] from rfl]
        rw [bucketOf_snoc, if_pos rfl, hempty]
        rfl

/-- `buildFpMap` is `bmapF` on the enumerated results, hence the extensional
grouping. -/
theorem buildFpMap_eq (results : List CardResult) :
    buildFpMap results = specMap (enumF 0 results) :=
  bmapF_eq (enumF 0 results)

theorem enumF_get {α : Type} :
    ∀ (l : List α) (k i : Nat) (a : α), (i, a) ∈ enumF k l →
      ∃ j, i = k + j ∧ l.get? j = some a := by
  intro l
  induction l with
  | nil => intro k i a h; simp [enumF] at h
  | cons b l ih =>
    intro k i a h
    rw [enumF] at h
    rcases List.mem_cons.mp h with h | h
    · rw [Prod.mk.injEq] at h
      exact ⟨0, by omega, by rw [← h.2]; rfl⟩
    · obtain ⟨j, hj, hg⟩ := ih (k + 1) i a h
      exact ⟨j + 1, by omega, hg⟩

theorem enumF_fst_ge {α : Type} :
    ∀ (l : List α) (k : Nat), ∀ p ∈ enumF k l, k ≤ p.1 := by
  intro l
  induction l with
  | nil => intro k p h; simp [enumF] at h
  | cons b l ih =>
    intro k p h
    rw [enumF] at h
    rcases List.mem_cons.mp h with h | h
    · rw [h]
    · exact le_trans (by omega) (ih (k + 1) p h)

theorem enumF_map_fst_nodup {α : Type} :
    ∀ (l : List α) (k : Nat), ((enumF k l).map Prod.fst).Nodup := by
  intro l
  induction l with
  | nil => intro k; simp [enumF]
  | cons b l ih =>
    intro k
    rw [enumF, List.map_cons, List.nodup_cons]
    refine ⟨?_, ih (k + 1)⟩
    intro hc
    obtain ⟨p, hp, hpk⟩ := List.mem_map.mp hc
    have := enumF_fst_ge l (k + 1) p hp
    omega

/-- Every fingerprint-map bucket is the batch-order bucket of its key. -/
theorem buildFpMap_bucket {results : List CardResult} {f : Fp} {l : List (String × Nat)}
    (h : (f, l) ∈ buildFpMap results) : l = bucketOf (enumF 0 results) f := by
  rw [buildFpMap_eq] at h
  unfold specMap at h
  obtain ⟨f', _, heq⟩ := List.mem_map.mp h
  rw [Prod.mk.injEq] at heq
  rw [← heq.2, heq.1]

theorem buildFpMap_keys_nodup (results : List CardResult) :
    ((buildFpMap results).map Prod.fst).Nodup := by
  rw [buildFpMap_eq]
  unfold specMap
  rw [List.map_map,
    show (Prod.fst ∘ fun f => (f, bucketOf (enumF 0 results) f)) = id from rfl, List.map_id]
  exact nodup_dedupF _

/-- Every entry of a fingerprint-map bucket points at a result with that
bucket's fingerprint and carries that result's identifier. -/
theorem buildFpMap_entry {results : List CardResult} {f : Fp} {l : List (String × Nat)}
    (h : (f, l) ∈ buildFpMap results) :
    ∀ e ∈ l, ∃ r, results.get? e.2 = some r ∧ fpOf r = f ∧ r.id = e.1 := by
  intro e he
  rw [buildFpMap_bucket h] at he
  unfold bucketOf at he
  obtain ⟨p, hp, hpe⟩ := List.mem_map.mp he
  unfold entriesWith at hp
  rw [List.mem_filter] at hp
  obtain ⟨hpes, hfp⟩ := hp
  rw [decide_eq_true_eq] at hfp
  obtain ⟨j, hj, hg⟩ := enumF_get results 0 p.1 p.2 hpes
  subst hpe
  refine ⟨p.2, ?_, hfp, rfl⟩
  show results.get? p.1 = some p.2
  rw [show p.1 = j from by omega]
  exact hg

theorem buildFpMap_idx_nodup {results : List CardResult} {f : Fp} {l : List (String × Nat)}
    (h : (f, l) ∈ buildFpMap results) : (l.map Prod.snd).Nodup := by
  rw [buildFpMap_bucket h]
  unfold bucketOf
  rw [List.map_map,
    show (Prod.snd ∘ fun p : Nat × CardResult => (p.2.id, p.1)) = Prod.fst from rfl]
  have hsub : (entriesWith (enumF 0 results) f).Sublist (enumF 0 results) :=
    List.filter_sublist _
  exact List.Nodup.sublist (hsub.map Prod.fst) (enumF_map_fst_nodup results 0)

/-! ### The duplicate-marking pass -/

theorem mg_untouched (orig : List (String × Nat)) :
    ∀ (t : List (String × Nat)) (res : List CardResult) (idx : Nat),
      idx ∉ t.map Prod.snd →
      (t.foldl (mgStep orig) res).get? idx = res.get? idx := by
  intro t
  induction t with
  | nil => intro res idx _; rfl
  | cons e t ih =>
    intro res idx h
    rw [List.map_cons] at h
    have hne : e.2 ≠ idx := fun hc => h (hc ▸ List.mem_cons_self ..)
    rw [List.foldl_cons, ih _ idx (fun hc => h (List.mem_cons_of_mem _ hc))]
    unfold mgStep
    cases hg : res.get? e.2 with
    | none => rfl
    | some r => exact List.get?_set_ne _ res hne

theorem mg_hit (orig : List (String × Nat)) :
    ∀ (t : List (String × Nat)) (res : List CardResult) (cid : String) (idx : Nat)
      (r : CardResult),
      (t.map Prod.snd).Nodup → (cid, idx) ∈ t → res.get? idx = some r →
      (t.foldl (mgStep orig) res).get? idx = some (applyDup r (otherIds orig cid)) := by
  intro t
  induction t with
  | nil => intro res cid idx r _ h _; simp at h
  | cons e t ih =>
    intro res cid idx r hnd hmem hres
    rw [List.map_cons, List.nodup_cons] at hnd
    rw [List.foldl_cons]
    rcases List.mem_cons.mp hmem with heq | hmem'
    · have hstep : mgStep orig res e = res.set idx (applyDup r (otherIds orig cid)) := by
        unfold mgStep
        rw [← heq, hres]
      rw [hstep, mg_untouched orig t _ idx (by rw [← heq] at hnd; exact hnd.1)]
      rw [List.get?_set_eq, hres]
      rfl
    · have hne : e.2 ≠ idx := by
        intro hc
        exact hnd.1 (hc ▸ List.mem_map.mpr ⟨(cid, idx), hmem', rfl⟩)
      have hres' : (mgStep orig res e).get? idx = some r := by
        unfold mgStep
        cases hg : res.get? e.2 with
        | none => exact hres
        | some r' => rw [List.get?_set_ne _ res hne]; exact hres
      exact ih _ cid idx r hnd.2 hmem' hres'

theorem markGroup_untouched (res : List CardResult) (l : List (String × Nat)) (idx : Nat)
    (h : idx ∉ l.map Prod.snd) : (markGroup res l).get? idx = res.get? idx :=
  mg_untouched l l res idx h

theorem markGroup_hit (res : List CardResult) (l : List (String × Nat)) (cid : String)
    (idx : Nat) (r : CardResult) (hnd : (l.map Prod.snd).Nodup) (hm : (cid, idx) ∈ l)
    (hres : res.get? idx = some r) :
    (markGroup res l).get? idx = some (applyDup r (otherIds l cid)) :=
  mg_hit l l res cid idx r hnd hm hres

theorem md_untouched :
    ∀ (m : List (Fp × List (String × Nat))) (res : List CardResult) (idx : Nat),
      (∀ b ∈ m, idx ∉ b.2.map Prod.snd) →
      (m.foldl (fun res bucket =>
        if 1 < bucket.2.length then markGroup res bucket.2 else res) res).get? idx =
        res.get? idx := by
  intro m
  induction m with
  | nil => intro res idx _; rfl
  | cons b m ih =>
    intro res idx h
    rw [List.foldl_cons, ih _ idx (fun b' hb' => h b' (List.mem_cons_of_mem _ hb'))]
    by_cases hlen : 1 < b.2.length
    · rw [if_pos hlen]
      exact markGroup_untouched res b.2 idx (h b (List.mem_cons_self ..))
    · rw [if_neg hlen]

/-- The final value of the marking pass at a member of a duplicate group. -/
theorem markDuplicates_get (results : List CardResult) :
    ∀ (m : List (Fp × List (String × Nat))) (res : List CardResult)
      (f0 : Fp) (l0 : List (String × Nat)) (cid : String) (idx : Nat) (r : CardResult),
      (∀ b ∈ m, ∀ e ∈ b.2, ∃ r', results.get? e.2 = some r' ∧ fpOf r' = b.1 ∧ r'.id = e.1) →
      (m.map Prod.fst).Nodup →
      (∀ b ∈ m, (b.2.map Prod.snd).Nodup) →
      (f0, l0) ∈ m → 1 < l0.length → (cid, idx) ∈ l0 →
      res.get? idx = results.get? idx → results.get? idx = some r → fpOf r = f0 →
      (m.foldl (fun res bucket =>
        if 1 < bucket.2.length then markGroup res bucket.2 else res) res).get? idx =
        some (applyDup r (otherIds l0 cid)) := by
  intro m
  induction m with
  | nil => intro res f0 l0 cid idx r _ _ _ hmem _ _ _ _ _; simp at hmem
  | cons b m ih =>
    intro res f0 l0 cid idx r H1 H2 H3 hmem hlen hentry hres hr hfp
    rw [List.map_cons, List.nodup_cons] at H2
    rw [List.foldl_cons]
    rcases List.mem_cons.mp hmem with heq | hmem'
    · have hstep : (if 1 < b.2.length then markGroup res b.2 else res) = markGroup res l0 := by
        rw [← heq, if_pos hlen]
      rw [hstep, md_untouched m _ idx ?_]
      · exact markGroup_hit res l0 cid idx r
          (by have := H3 b (List.mem_cons_self ..); rw [← heq] at this; exact this)
          hentry (hres.trans hr)
      · intro b' hb' hidx
        obtain ⟨e, he, he2⟩ := List.mem_map.mp hidx
        obtain ⟨r', hr', hfp', -⟩ := H1 b' (List.mem_cons_of_mem _ hb') e he
        rw [he2, hr] at hr'
        injection hr' with hrr
        apply H2.1
        rw [show b.1 = b'.1 from by rw [← heq]; rw [← hfp, hrr, hfp']]
        exact List.mem_map.mpr ⟨b', hb', rfl⟩
    · have hb1ne : b.1 ≠ f0 := by
        intro hc
        apply H2.1
        rw [hc]
        exact List.mem_map.mpr ⟨(f0, l0), hmem', rfl⟩
      have hpres : (if 1 < b.2.length then markGroup res b.2 else res).get? idx =
          res.get? idx := by
        by_cases hl : 1 < b.2.length
        · rw [if_pos hl]
          apply markGroup_untouched
          intro hidx
          obtain ⟨e, he, he2⟩ := List.mem_map.mp hidx
          obtain ⟨r', hr', hfp', -⟩ := H1 b (List.mem_cons_self ..) e he
          rw [he2, hr] at hr'
          injection hr' with hrr
          exact hb1ne (by rw [← hfp', ← hrr, hfp])
        · rw [if_neg hl]
      exact ih _ f0 l0 cid idx r (fun b' hb' => H1 b' (List.mem_cons_of_mem _ hb')) H2.2
        (fun b' hb' => H3 b' (List.mem_cons_of_mem _ hb')) hmem' hlen hentry
        (hpres.trans hres) hr hfp

/-- At every member of every duplicate group, the batch output is the
member's pre-marking result rewritten by `applyDup` against the other group
members. -/
theorem validateBatch_dup_member (cards : List Card) (f : Fp) (l : List (String × Nat))
    (cid : String) (idx : Nat)
    (hb : (f, l) ∈ buildFpMap (resultsOf cards)) (hlen : 1 < l.length)
    (hm : (cid, idx) ∈ l) :
    ∃ r, (resultsOf cards).get? idx = some r ∧ r.id = cid ∧
      (validateBatch cards).1.get? idx = some (applyDup r (otherIds l cid)) := by
  obtain ⟨r, hr, hfp, hid⟩ := buildFpMap_entry hb (cid, idx) hm
  refine ⟨r, hr, hid, ?_⟩
  exact markDuplicates_get (resultsOf cards) (buildFpMap (resultsOf cards))
    (resultsOf cards) f l cid idx r
    (fun b hb' => buildFpMap_entry hb')
    (buildFpMap_keys_nodup (resultsOf cards))
    (fun b hb' => buildFpMap_idx_nodup hb')
    hb hlen hm rfl hr hfp

theorem enumF_map_comp {α β : Type} (f : α → β) :
    ∀ (l : List α) (k : Nat), (enumF k l).map (fun p => f p.2) = l.map f := by
  intro l
  induction l with
  | nil => intro k; rfl
  | cons b l ih => intro k; rw [enumF, List.map_cons, List.map_cons, ih]

/-- `applyDup` rewrites only the validity flag and the message, and the
message follows the valid/invalid template of the source. -/
theorem applyDup_spec (r : CardResult) (others : List String) :
    (applyDup r others).id = r.id ∧ (applyDup r others).b = r.b ∧
    (applyDup r others).i = r.i ∧ (applyDup r others).n = r.n ∧
    (applyDup r others).g = r.g ∧ (applyDup r others).o = r.o ∧
    (applyDup r others).valid = false ∧
    (applyDup r others).msg =
      (if r.valid then
        "Valid but Duplicate of card(s) " ++ String.intercalate ", " others
      else r.msg ++ "; Duplicate of card(s) " ++ String.intercalate ", " others) := by
  have hlit1 : ("Valid but " ++ "Duplicate of card(s) " : String) =
    "Valid but Duplicate of card(s) " := rfl
  have hlit2 : ("; " ++ "Duplicate of card(s) " : String) = "; Duplicate of card(s) " := rfl
  by_cases h : r.valid
  · refine ⟨by simp [applyDup, h], by simp [applyDup, h], by simp [applyDup, h],
      by simp [applyDup, h], by simp [applyDup, h], by simp [applyDup, h],
      by simp [applyDup, h], ?_⟩
    simp only [applyDup, h, if_true]
    rw [← String.append_assoc, hlit1]
  · refine ⟨by simp [applyDup, h], by simp [applyDup, h], by simp [applyDup, h],
      by simp [applyDup, h], by simp [applyDup, h], by simp [applyDup, h],
      by simp [applyDup, h], ?_⟩
    simp only [applyDup, h, Bool.false_eq_true, if_false]
    rw [← String.append_assoc (r.msg ++ "; "), String.append_assoc r.msg "; ", hlit2]

/-! ### Concrete batches for witnesses and counterexamples -/

def colB : List (Option Int) := [some 1, some 2, some 3, some 4, some 5]
def colI : List (Option Int) := [some 16, some 17, some 18, some 19, some 20]
def colN : List (Option Int) := [some 31, some 32, some 0, some 34, some 35]
def colG : List (Option Int) := [some 46, some 47, some 48, some 49, some 50]
def colO : List (Option Int) := [some 61, some 62, some 63, some 64, some 65]

/-- Two identical, individually valid cards with distinct identifiers. -/
def cardsC : List Card :=
  [⟨"1", colB, colI, colN, colG, colO⟩, ⟨"2", colB, colI, colN, colG, colO⟩]

/-- Two identical, individually valid cards sharing the identifier "1". -/
def cardsDupId : List Card :=
  [⟨"1", colB, colI, colN, colG, colO⟩, ⟨"1", colB, colI, colN, colG, colO⟩]

def fpC : Fp := (colB, colI, colN, colG, colO)

/-! ### C2, C5, C8 -/

/-- C2, counterexample: two distinct members carrying the identifier "1" form
one duplicate group, yet each member's message lists *no* other identifier —
`other_ids` excludes by identifier string, so a member with the same
identifier string is dropped — contradicting the claim that only the member
itself is excluded. -/
theorem c2_counterexample :
    (validateBatch cardsDupId).2 = [["1", "1"]] ∧
    (validateBatch cardsDupId).1.map (fun r => (r.valid, r.msg)) =
      [(false, "Valid but Duplicate of card(s) "),
       (false, "Valid but Duplicate of card(s) ")] := by
  constructor <;> rfl

/-- C2, amended: for every member of a duplicate group of size ≥ 2, the
identifiers listed in its duplicate message are the identifiers of the group
members whose identifier string *differs* from this member's, in their batch
appearance order — members sharing this member's identifier string are all
excluded, not only the member itself. -/
theorem c2_other_ids_by_string (cards : List Card) (f : Fp) (l : List (String × Nat))
    (cid : String) (idx : Nat)
    (hb : (f, l) ∈ buildFpMap (resultsOf cards)) (hlen : 1 < l.length)
    (hm : (cid, idx) ∈ l) :
    otherIds l cid = (groupIdsOf (resultsOf cards) f).filter (fun c => c != cid) ∧
    ∃ r, (resultsOf cards).get? idx = some r ∧
      (validateBatch cards).1.get? idx =
        some (applyDup r ((groupIdsOf (resultsOf cards) f).filter (fun c => c != cid))) := by
  have hl : l = bucketOf (enumF 0 (resultsOf cards)) f := buildFpMap_bucket hb
  have hoids : otherIds l cid =
      (groupIdsOf (resultsOf cards) f).filter (fun c => c != cid) := by
    rw [hl]
    rfl
  refine ⟨hoids, ?_⟩
  obtain ⟨r, hr, -, hfinal⟩ := validateBatch_dup_member cards f l cid idx hb hlen hm
  rw [hoids] at hfinal
  exact ⟨r, hr, hfinal⟩

theorem c2_other_ids_by_string_witness :
    otherIds [("1", 0), ("2", 1)] "1" =
      (groupIdsOf (resultsOf cardsC) fpC).filter (fun c => c != "1") ∧
    ∃ r, (resultsOf cardsC).get? 0 = some r ∧
      (validateBatch cardsC).1.get? 0 =
        some (applyDup r ((groupIdsOf (resultsOf cardsC) fpC).filter (fun c => c != "1"))) :=
  c2_other_ids_by_string cardsC fpC [("1", 0), ("2", 1)] "1" 0
    (by decide) (by decide) (by decide)

/-- C5: for every member of a duplicate group of size ≥ 2, the Deduplicator
leaves the identifier and the five token-sequences unchanged and rewrites
only the flag and message: a previously valid member becomes invalid with
message "Valid but Duplicate of card(s) {other ids}", and an already-invalid
member keeps its message with "; Duplicate of card(s) {other ids}"
appended. -/
theorem c5_dedup_rewrites_only_verdict (cards : List Card) (f : Fp)
    (l : List (String × Nat)) (cid : String) (idx : Nat)
    (hb : (f, l) ∈ buildFpMap (resultsOf cards)) (hlen : 1 < l.length)
    (hm : (cid, idx) ∈ l) :
    ∃ r r', (resultsOf cards).get? idx = some r ∧
      (validateBatch cards).1.get? idx = some r' ∧
      r'.id = r.id ∧ r'.b = r.b ∧ r'.i = r.i ∧ r'.n = r.n ∧ r'.g = r.g ∧ r'.o = r.o ∧
      r'.valid = false ∧
      r'.msg = (if r.valid then
          "Valid but Duplicate of card(s) " ++ String.intercalate ", " (otherIds l cid)
        else
          r.msg ++ "; Duplicate of card(s) " ++ String.intercalate ", " (otherIds l cid)) := by
  obtain ⟨r, hr, -, hfinal⟩ := validateBatch_dup_member cards f l cid idx hb hlen hm
  obtain ⟨h1, h2, h3, h4, h5, h6, h7, h8⟩ := applyDup_spec r (otherIds l cid)
  exact ⟨r, applyDup r (otherIds l cid), hr, hfinal, h1, h2, h3, h4, h5, h6, h7, h8⟩

theorem c5_dedup_rewrites_only_verdict_witness :
    ∃ r r', (resultsOf cardsC).get? 1 = some r ∧
      (validateBatch cardsC).1.get? 1 = some r' ∧
      r'.id = r.id ∧ r'.b = r.b ∧ r'.i = r.i ∧ r'.n = r.n ∧ r'.g = r.g ∧ r'.o = r.o ∧
      r'.valid = false ∧
      r'.msg = (if r.valid then
          "Valid but Duplicate of card(s) " ++
            String.intercalate ", " (otherIds [("1", 0), ("2", 1)] "2")
        else
          r.msg ++ "; Duplicate of card(s) " ++
            String.intercalate ", " (otherIds [("1", 0), ("2", 1)] "2")) :=
  c5_dedup_rewrites_only_verdict cardsC fpC [("1", 0), ("2", 1)] "2" 1
    (by decide) (by decide) (by decide)

/-- C8: the reported duplicate groups are, in order, the distinct
fingerprints of the batch in first-encounter order restricted to those with
at least two members, each group listing its members' identifiers in batch
order. -/
theorem c8_group_order (cards : List Card) :
    (validateBatch cards).2 = specGroups (resultsOf cards) := by
  have step1 : (validateBatch cards).2 =
      ((dedupF ((resultsOf cards).map fpOf)).filter
        (fun f => 1 < (bucketOf (enumF 0 (resultsOf cards)) f).length)).map
        (fun f => (bucketOf (enumF 0 (resultsOf cards)) f).map Prod.fst) := by
    show ((buildFpMap (resultsOf cards)).filter
        (fun bucket => 1 < bucket.2.length)).map (fun bucket => bucket.2.map Prod.fst) = _
    rw [buildFpMap_eq]
    unfold specMap
    rw [List.filter_map, List.map_map, enumF_map_comp fpOf (resultsOf cards) 0]
    rfl
  rw [step1]
  unfold specGroups
  rw [List.filter_congr (fun f _ => by
    show decide (1 < (bucketOf (enumF 0 (resultsOf cards)) f).length) =
      decide (1 < (groupIdsOf (resultsOf cards) f).length)
    unfold groupIdsOf
    rw [List.length_map])]
  rfl

end BingoApp
